import Mathlib

/-!
Verification of the delimiter-aware core of the g4-to-ebnf repository:
the token scanner, rule extractor, alternative splitter, dependency
analyzer and layout renderer.  Strings are modelled as `List Char`;
each definition embeds one function of `src/ebnf-prettify.ts`,
`src/ebnf-check.ts` or `src/g4-to-ebnf.ts` (the tokenizer and the
formatting helpers are textually duplicated between ebnf-prettify.ts
and g4-to-ebnf.ts; one Lean definition embeds both copies).
Imperative loops that consume at least one character per iteration are
embedded with an explicit fuel argument initialised to the input
length, which keeps every definition structurally recursive and
kernel-computable.
-/

namespace G4Ebnf

/-- Character test embedding the JavaScript regular expression `\s`
(space, tab, line feed, carriage return, vertical tab, form feed and
the Unicode space characters). -/
def isWsChar (c : Char) : Bool :=
  c = ' ' ∨ c = '\t' ∨ c = '\n' ∨ c = '\r' ∨ c = '\x0b' ∨ c = '\x0c' ∨
  c = ' ' ∨ c = ' ' ∨ (' ' ≤ c ∧ c ≤ ' ') ∨
  c = ' ' ∨ c = ' ' ∨ c = ' ' ∨ c = ' ' ∨
  c = '　' ∨ c = '﻿'

/-- Membership in the single-character operator set `"|()?,;+*"` of the
tokenizer. -/
def isOpChar (c : Char) : Bool :=
  c = '|' ∨ c = '(' ∨ c = ')' ∨ c = '?' ∨ c = ',' ∨ c = ';' ∨
  c = '+' ∨ c = '*'

/-- Character test embedding `[A-Za-z_]` (identifier start). -/
def isIdentStart (c : Char) : Bool :=
  ('A' ≤ c ∧ c ≤ 'Z') ∨ ('a' ≤ c ∧ c ≤ 'z') ∨ c = '_'

/-- Character test embedding `[A-Za-z0-9_]`, the JavaScript `\w`. -/
def isWordChar (c : Char) : Bool :=
  isIdentStart c ∨ ('0' ≤ c ∧ c ≤ '9')

/-- Embedding of the JavaScript `String.prototype.trim`: whitespace is
removed from both ends. -/
def trim (l : List Char) : List Char :=
  ((l.dropWhile isWsChar).reverse.dropWhile isWsChar).reverse

/-- Shorthand turning a string literal into the character list it
denotes. -/
def chars (s : String) : List Char := s.toList

/-- Token kinds of the tokenizer in ebnf-prettify.ts (type `TokType`,
also duplicated in g4-to-ebnf.ts).  The source kind `string` is named
`str` here. -/
inductive TokType where
  | ws
  | ident
  | str
  | charclass
  | op
  | comment
  deriving DecidableEq

/-- One classified token (source type `Tok`): a kind together with the
exact source substring. -/
structure Tok where
  type : TokType
  text : List Char
  deriving DecidableEq

/-- Scan inside a `(* ... *)` comment: consume up to and including the
closing `*)`, or the whole input when the comment is unterminated
(ebnf-prettify.ts lines 82-89). -/
def scanToStarParen : List Char → List Char × List Char
  | [] => ([], [])
  | '*' :: ')' :: rest => (['*', ')'], rest)
  | c :: rest =>
    let p := scanToStarParen rest
    (c :: p.1, p.2)

/-- Scan inside a `/* ... */` comment: consume up to and including the
closing delimiter, or the whole input when unterminated
(ebnf-prettify.ts lines 97-104). -/
def scanToStarSlash : List Char → List Char × List Char
  | [] => ([], [])
  | '*' :: '/' :: rest => (['*', '/'], rest)
  | c :: rest =>
    let p := scanToStarSlash rest
    (c :: p.1, p.2)

/-- Scan the body of a quoted literal after the opening quote `q`: a
backslash together with the following character is always consumed as a
pair, and an unescaped `q` (consumed) ends the scan; an unterminated
literal consumes the whole input (ebnf-prettify.ts lines 107-119; the
identical inline loops of ebnf-check.ts lines 70-80 and 138-149 have
the same semantics). -/
def scanString (q : Char) : List Char → List Char × List Char
  | [] => ([], [])
  | '\\' :: c :: rest =>
    let p := scanString q rest
    ('\\' :: c :: p.1, p.2)
  | c :: rest =>
    if c = q then ([c], rest)
    else
      let p := scanString q rest
      (c :: p.1, p.2)

/-- Scan the body of a character class after the opening `[` with
current nesting depth `d`: escape pairs are consumed together, `[` and
`]` adjust the depth, and the scan ends after the `]` that brings the
depth to zero; an unterminated class consumes the whole input
(ebnf-prettify.ts lines 122-135; same loop at ebnf-check.ts lines
150-161). -/
def scanClass : Nat → List Char → List Char × List Char
  | _, [] => ([], [])
  | d, '\\' :: c :: rest =>
    let p := scanClass d rest
    ('\\' :: c :: p.1, p.2)
  | d, c :: rest =>
    let d2 := if c = '[' then d + 1 else if c = ']' then d - 1 else d
    if d2 = 0 then ([c], rest)
    else
      let p := scanClass d2 rest
      (c :: p.1, p.2)

/-- One step of the tokenizer `tokenize` of ebnf-prettify.ts (lines
62-166; `tokenizeEBNF` of g4-to-ebnf.ts lines 336-440 is an identical
copy): classify the token starting at the head of the input and return
it together with the unconsumed remainder.  The branch order follows
the source: whitespace, the three comment forms, quoted literals,
character classes, the three-character operator, single-character
operators, identifiers, and the single-character fallback. -/
def nextTok : List Char → Option (Tok × List Char)
  | [] => none
  | c :: cs =>
    if isWsChar c then
      some (⟨.ws, c :: cs.takeWhile isWsChar⟩, cs.dropWhile isWsChar)
    else if c = '(' ∧ cs.head? = some '*' then
      let p := scanToStarParen cs.tail
      some (⟨.comment, '(' :: '*' :: p.1⟩, p.2)
    else if c = '/' ∧ cs.head? = some '/' then
      some (⟨.comment, '/' :: '/' :: cs.tail.takeWhile (fun x => ¬ x = '\n')⟩,
            cs.tail.dropWhile (fun x => ¬ x = '\n'))
    else if c = '/' ∧ cs.head? = some '*' then
      let p := scanToStarSlash cs.tail
      some (⟨.comment, '/' :: '*' :: p.1⟩, p.2)
    else if c = '\'' ∨ c = '"' then
      let p := scanString c cs
      some (⟨.str, c :: p.1⟩, p.2)
    else if c = '[' then
      let p := scanClass 1 cs
      some (⟨.charclass, '[' :: p.1⟩, p.2)
    else if c = ':' ∧ cs.take 2 = [':', '='] then
      some (⟨.op, [':', ':', '=']⟩, cs.drop 2)
    else if isOpChar c then
      some (⟨.op, [c]⟩, cs)
    else if isIdentStart c then
      some (⟨.ident, c :: cs.takeWhile isWordChar⟩, cs.dropWhile isWordChar)
    else
      some (⟨.ident, [c]⟩, cs)

/-- Fuelled main loop of the tokenizer; every step consumes at least
one character, so fuel equal to the input length suffices. -/
def tokloop : Nat → List Char → List Tok
  | 0, _ => []
  | fuel + 1, l =>
    match nextTok l with
    | none => []
    | some (t, rest) => t :: tokloop fuel rest

/-- The token scanner: `tokenize` of ebnf-prettify.ts (and the
identical `tokenizeEBNF` of g4-to-ebnf.ts). -/
def tokenize (l : List Char) : List Tok := tokloop l.length l

/-- Parenthesis-depth update shared by the rule extractor and the
alternative splitter of ebnf-prettify.ts (lines 215-216 and 309-310):
an operator token `(` increments the depth and an operator token `)`
decrements it, floored at zero. -/
def stepDepth (d : Nat) (tk : Tok) : Nat :=
  let d1 := if tk.type = .op ∧ tk.text = ['('] then d + 1 else d
  if tk.type = .op ∧ tk.text = [')'] then d1 - 1 else d1

/-- Parenthesis depth after a whole token list, starting from `d`. -/
def depthFold (d : Nat) (ts : List Tok) : Nat := ts.foldl stepDepth d

/-- A token terminates a rule when it is the operator `;` seen at
parenthesis depth zero (ebnf-prettify.ts line 218). -/
def isTopSemi (d : Nat) (tk : Tok) : Prop :=
  tk.type = .op ∧ tk.text = [';'] ∧ stepDepth d tk = 0

instance (d : Nat) (tk : Tok) : Decidable (isTopSemi d tk) := by
  unfold isTopSemi; infer_instance

/-- Right-hand-side accumulation of the rule extractor
(ebnf-prettify.ts lines 211-224): starting at depth `d`, collect
tokens into the rhs while tracking parenthesis depth, and stop
consuming the terminator when a `;` operator token is seen at depth
zero.  Returns the rhs and the tokens after the terminator. -/
def collectRhs : Nat → List Tok → List Tok × List Tok
  | _, [] => ([], [])
  | d, tk :: rest =>
    let d2 := stepDepth d tk
    if tk.type = .op ∧ tk.text = [';'] ∧ d2 = 0 then ([], rest)
    else
      let p := collectRhs d2 rest
      (tk :: p.1, p.2)

/-- Leading-comment collection of the rule extractor
(ebnf-prettify.ts lines 182-190): consecutive comment tokens are
appended to the pending buffer, each together with one immediately
following whitespace token. -/
def collectLead : List Tok → List (List Char) → List (List Char) × List Tok
  | [], acc => (acc, [])
  | [tk], acc =>
    if tk.type = .comment then (acc ++ [tk.text], []) else (acc, [tk])
  | tk :: tk2 :: rest2, acc =>
    if tk.type = .comment then
      if tk2.type = .ws then collectLead rest2 (acc ++ [tk.text ++ tk2.text])
      else collectLead (tk2 :: rest2) (acc ++ [tk.text])
    else (acc, tk :: tk2 :: rest2)

/-- A rule of the formatting path (source type `Rule` of
ebnf-prettify.ts): a name, a right-hand-side token span and the
leading comments. -/
structure PRule where
  name : List Char
  rhs : List Tok
  leadingComments : List (List Char)
  deriving DecidableEq

/-- Whitespace-and-comment collection after an emitted rule
(ebnf-prettify.ts lines 230-233): each token text becomes its own
entry of the pending buffer. -/
def collectTrail : List Tok → List (List Char) → List (List Char) × List Tok
  | [], acc => (acc, [])
  | tk :: rest, acc =>
    if tk.type = .ws ∨ tk.type = .comment then
      collectTrail rest (acc ++ [tk.text])
    else (acc, tk :: rest)

/-- Fuelled main loop of the rule extractor `extractRules` of
ebnf-prettify.ts (lines 171-237; `extractEBNFRules` of g4-to-ebnf.ts
lines 444-509 is an identical copy).  Each iteration consumes at least
one token, so fuel equal to the token count suffices. -/
def exrLoop : Nat → List Tok → List (List Char) → List PRule
  | 0, _, _ => []
  | fuel + 1, toks, lead =>
    let p := collectLead toks lead
    let toks2 := p.2.dropWhile (fun tk => tk.type = .ws)
    match toks2 with
    | [] => []
    | tk :: rest =>
      if tk.type = .ident then
        let rest2 := rest.dropWhile (fun t => t.type = .ws)
        match rest2 with
        | tk2 :: rest3 =>
          if tk2.type = .op ∧ tk2.text = [':', ':', '='] then
            let q := collectRhs 0 rest3
            let tr := collectTrail q.2 []
            ⟨tk.text, q.1, p.1⟩ :: exrLoop fuel tr.2 tr.1
          else exrLoop fuel rest2 p.1
        | [] => exrLoop fuel [] p.1
      else exrLoop fuel rest p.1

/-- The rule extractor of the formatting path: `extractRules` of
ebnf-prettify.ts (and the identical `extractEBNFRules` of
g4-to-ebnf.ts). -/
def extractPRules (toks : List Tok) : List PRule := exrLoop (toks.length + 1) toks []

/-- Loop of `splitTopLevelAlternatives` (ebnf-prettify.ts lines
303-320, duplicated in g4-to-ebnf.ts lines 568-585): accumulate the
current alternative, and at every `|` operator token seen at
parenthesis depth zero emit it and start a new one; the trailing
alternative is always emitted. -/
def stlaGo : List Tok → Nat → List Tok → List (List Tok) → List (List Tok)
  | [], _, cur, alts => alts ++ [cur]
  | tk :: rest, d, cur, alts =>
    let d2 := stepDepth d tk
    if tk.type = .op ∧ tk.text = ['|'] ∧ d2 = 0 then
      stlaGo rest d2 [] (alts ++ [cur])
    else stlaGo rest d2 (cur ++ [tk]) alts

/-- The alternative splitter of the formatting path:
`splitTopLevelAlternatives` of ebnf-prettify.ts (and the identical
copy in g4-to-ebnf.ts). -/
def splitTopLevelAlternatives (rhs : List Tok) : List (List Tok) :=
  stlaGo rhs 0 [] []

/-- Test for a `|` operator token at parenthesis depth zero somewhere
in the token list, with the depth tracked exactly as in the splitter. -/
def hasTopBar : Nat → List Tok → Bool
  | _, [] => false
  | d, tk :: rest =>
    let d2 := stepDepth d tk
    if tk.type = .op ∧ tk.text = ['|'] ∧ d2 = 0 then true
    else hasTopBar d2 rest

/-- Adjacency table `needSpaceBetween` of `joinTokensNicely`
(ebnf-prettify.ts lines 250-273). -/
def needSpace (a : Option Tok) (b : Tok) : Bool :=
  match a with
  | none => false
  | some a =>
    if a.type = .comment ∨ b.type = .comment then true
    else if b.type = .op ∧ (b.text = [')'] ∨ b.text = ['?'] ∨ b.text = ['*'] ∨ b.text = ['+']) then false
    else if a.type = .op ∧ a.text = ['('] then false
    else if b.type = .op ∧ (b.text = [':', ':', '='] ∨ b.text = ['|']) then true
    else if a.type = .op ∧ (a.text = [':', ':', '='] ∨ a.text = ['|']) then true
    else if b.type = .op ∧ b.text = [','] then false
    else if a.type = .op ∧ a.text = [','] then true
    else if (a.type = .ident ∨ a.type = .str ∨ a.type = .charclass ∨ (a.type = .op ∧ a.text = [')'])) ∧
            (b.type = .ident ∨ b.type = .str ∨ b.type = .charclass ∨ (b.type = .op ∧ b.text = ['('])) then true
    else false

/-- Rendering of one non-whitespace non-comment token inside
`joinTokensNicely` (ebnf-prettify.ts lines 289-297): a comma becomes
comma-space, grouping and quantifier operators stay bare, `|` and
`::=` are padded with spaces, and every other token keeps its text. -/
def renderTok (tk : Tok) : List Char :=
  if tk.type = .op then
    if tk.text = [','] then [',', ' ']
    else if tk.text = ['('] ∨ tk.text = [')'] ∨ tk.text = ['?'] ∨ tk.text = ['*'] ∨ tk.text = ['+'] then tk.text
    else if tk.text = ['|'] then [' ', '|', ' ']
    else if tk.text = [':', ':', '='] then [' ', ':', ':', '=', ' ']
    else tk.text
  else tk.text

/-- Embedding of `String.prototype.trimEnd`. -/
def trimEnd (l : List Char) : List Char :=
  (l.reverse.dropWhile isWsChar).reverse

/-- Main loop of `joinTokensNicely` (ebnf-prettify.ts lines 275-299):
whitespace tokens are skipped, comments are forced onto their own
line, and other tokens are rendered with the adjacency table deciding
separating spaces. -/
def jtnLoop : List Tok → List Char → Option Tok → List Char
  | [], out, _ => out
  | tk :: rest, out, prev =>
    if tk.type = .ws then jtnLoop rest out prev
    else if tk.type = .comment then
      let out1 := if out.getLast? = some '\n' then out else out ++ ['\n']
      jtnLoop rest (out1 ++ trimEnd tk.text ++ ['\n']) none
    else
      let out1 := if needSpace prev tk then out ++ [' '] else out
      jtnLoop rest (out1 ++ renderTok tk) (some tk)

/-- Fuelled embedding of the replacement of `[ \t]+\n` by a bare line
feed (ebnf-prettify.ts line 300): a run of spaces and tabs immediately
followed by a line feed is deleted. -/
def squashGo : Nat → List Char → List Char
  | 0, l => l
  | fuel + 1, l =>
    match l with
    | [] => []
    | c :: rest =>
      if c = ' ' ∨ c = '\t' then
        let run := (c :: rest).takeWhile (fun x => x = ' ' ∨ x = '\t')
        let after := (c :: rest).dropWhile (fun x => x = ' ' ∨ x = '\t')
        match after with
        | '\n' :: rest2 => '\n' :: squashGo fuel rest2
        | _ => run ++ squashGo fuel after
      else c :: squashGo fuel rest

/-- Token joining of the renderer: `joinTokensNicely` of
ebnf-prettify.ts lines 241-301 (identical copy in g4-to-ebnf.ts lines
511-566), including the final whitespace-before-newline cleanup and
trim. -/
def joinTokensNicely (toks : List Tok) : List Char :=
  let out := jtnLoop toks [] none
  trim (squashGo out.length out)

/-- Embedding of `text.split(/\s\|\s/g)` used by `softWrap`
(ebnf-prettify.ts line 325): split at every occurrence of a
whitespace character, a bar and a whitespace character. -/
def splitWsBarWs : List Char → List Char → List (List Char)
  | a :: '|' :: b :: rest, acc =>
    if isWsChar a ∧ isWsChar b then acc :: splitWsBarWs rest []
    else splitWsBarWs ('|' :: b :: rest) (acc ++ [a])
  | c :: rest, acc => splitWsBarWs rest (acc ++ [c])
  | [], acc => [acc]

mutual
/-- Embedding of `text.split(/\s+/)` used by the fallback branch of
`softWrap` (ebnf-prettify.ts line 333): maximal whitespace runs
separate the parts, with empty parts at the ends when the text starts
or ends with whitespace. -/
def swrGo : List Char → List Char → List (List Char)
  | [], acc => [acc]
  | c :: rest, acc =>
    if isWsChar c then acc :: swrSkip rest
    else swrGo rest (acc ++ [c])

/-- Whitespace-run state of `swrGo`. -/
def swrSkip : List Char → List (List Char)
  | [] => [[]]
  | c :: rest =>
    if isWsChar c then swrSkip rest
    else swrGo rest [c]
end

/-- Word-wrapping loop of the fallback branch of `softWrap`
(ebnf-prettify.ts lines 334-344). -/
def wrapWords (max : Nat) (ind : List Char) : List (List Char) → List Char → List Char → List Char
  | [], out, line =>
    if line ≠ [] then out ++ (if out ≠ [] then ['\n'] else []) ++ line else out
  | w :: ws, out, line =>
    let cand := line ++ (if line ≠ [] then [' '] else []) ++ w
    if max < cand.length then
      wrapWords max ind ws (out ++ (if out ≠ [] then ['\n'] else []) ++ line) (ind ++ w)
    else wrapWords max ind ws out cand

/-- Soft wrapping of a rendered line: `softWrap` of ebnf-prettify.ts
lines 322-346 (identical copy in g4-to-ebnf.ts lines 587-611).  Text
short enough is returned unchanged; otherwise the text is rebroken at
bar boundaries when possible, else wrapped at spaces. -/
def softWrap (text : List Char) (max : Nat) (hangingIndent : List Char) : List Char :=
  if text.length ≤ max then text
  else
    let parts := splitWsBarWs text []
    if 1 < parts.length then
      match parts with
      | [] => []
      | p0 :: ps =>
        p0 ++ (ps.map (fun p => '\n' :: (hangingIndent ++ ['|', ' '] ++ p))).flatten
    else wrapWords max hangingIndent (swrGo text []) [] []

/-- Rule rendering: `formatRule` of ebnf-prettify.ts lines 348-371
(`formatEBNFRule` of g4-to-ebnf.ts lines 613-636 is the same function
with the width passed as a parameter).  A single alternative is placed
after `::=` and soft-wrapped; several alternatives are placed on their
own lines with `| ` aligned under the first alternative, and the
terminator ` ;` is appended at the end. -/
def formatRule (r : PRule) (width : Nat) : List Char :=
  let alts := (splitTopLevelAlternatives r.rhs).map joinTokensNicely
  let head := r.name ++ [' ', ':', ':', '=', ' ']
  let indent := List.replicate head.length ' '
  let lead := r.leadingComments.flatten
  match alts with
  | [a] => lead ++ softWrap (head ++ a) width indent ++ [' ', ';']
  | _ =>
    let a0 := alts.headD []
    let parts := alts.tail.map (fun a => indent ++ ['|', ' '] ++ a)
    let body := head ++ a0 ++ ['\n'] ++ (parts.intersperse ['\n']).flatten
    lead ++ softWrap body width indent ++ [' ', ';']

/-- A rule record of the validator (type `Rule` of ebnf-check.ts line
27): a name, the raw right-hand-side text and a line number. -/
structure CRule where
  name : List Char
  rhs : List Char
  line : Nat
  deriving DecidableEq

/-- Embedding of `isUpperIdent` (ebnf-check.ts line 56), the regular
expression `^[A-Z_][A-Z0-9_]*$`. -/
def isUpperIdent : List Char → Bool
  | [] => false
  | c :: rest =>
    (('A' ≤ c ∧ c ≤ 'Z') ∨ c = '_') ∧
    rest.all (fun x => ('A' ≤ x ∧ x ≤ 'Z') ∨ ('0' ≤ x ∧ x ≤ '9') ∨ x = '_')

/-- Embedding of `isLowerIdent` (ebnf-check.ts line 57), the regular
expression `^[a-z_][A-Za-z0-9_]*$`. -/
def isLowerIdent : List Char → Bool
  | [] => false
  | c :: rest => (('a' ≤ c ∧ c ≤ 'z') ∨ c = '_') ∧ rest.all isWordChar

/-- Findings pushed by `splitAlternatives` of ebnf-check.ts, modelling
its error strings as data: `Unbalanced close` is the message pushed
for a stray `)` inside the loop, the other three are the end-of-scan
messages. -/
inductive SplitErr where
  | unbalancedClose
  | unbalancedParens
  | unbalancedBrackets
  | emptyAlt
  deriving DecidableEq

/-- Character-class sub-loop of `splitAlternatives` (ebnf-check.ts
lines 83-93): consume with bracket-depth tracking and escape pairs,
returning the consumed text, the remainder and the final depth (zero
when the class closed, positive when the input ran out). -/
def swClass : Nat → List Char → List Char × List Char × Nat
  | d, [] => ([], [], d)
  | d, '\\' :: c :: rest =>
    let p := swClass d rest
    ('\\' :: c :: p.1, p.2.1, p.2.2)
  | d, c :: rest =>
    let d2 := if c = '[' then d + 1 else if c = ']' then d - 1 else d
    if d2 = 0 then ([c], rest, 0)
    else
      let p := swClass d2 rest
      (c :: p.1, p.2.1, p.2.2)

/-- End-of-scan bookkeeping of `splitAlternatives` (ebnf-check.ts
lines 107-114): unbalance findings, the final (trimmed, nonempty)
alternative, and the empty-alternative finding when some emitted
alternative is the empty string. -/
def saFinish (dp : Int) (db : Nat) (current : List Char)
    (alts : List (List Char)) (errs : List SplitErr) :
    List (List Char) × List SplitErr :=
  let errs1 := if dp ≠ 0 then errs ++ [.unbalancedParens] else errs
  let errs2 := if db ≠ 0 then errs1 ++ [.unbalancedBrackets] else errs1
  let alts1 := if (trim current).length ≠ 0 then alts ++ [trim current] else alts
  let errs3 := if alts1.any (fun a => a.isEmpty) then errs2 ++ [.emptyAlt] else errs2
  (alts1, errs3)

/-- Fuelled main loop of `splitAlternatives` (ebnf-check.ts lines
64-106): quoted strings and character classes are consumed by their
sub-loops, parentheses adjust a signed depth (a negative depth pushes
an unbalanced-close finding), and a bar at parenthesis depth zero and
bracket depth zero emits the trimmed current alternative.  Each
iteration consumes at least one character, so fuel equal to the input
length suffices. -/
def saGo : Nat → List Char → Int → Nat → List Char →
    List (List Char) → List SplitErr → List (List Char) × List SplitErr
  | 0, _, dp, db, current, alts, errs => saFinish dp db current alts errs
  | fuel + 1, l, dp, db, current, alts, errs =>
    match l with
    | [] => saFinish dp db current alts errs
    | ch :: rest =>
      if ch = '\'' ∨ ch = '"' then
        let p := scanString ch rest
        saGo fuel p.2 dp db (current ++ ch :: p.1) alts errs
      else if ch = '[' then
        let p := swClass (db + 1) rest
        saGo fuel p.2.1 dp p.2.2 (current ++ ch :: p.1) alts errs
      else if ch = '(' then
        saGo fuel rest (dp + 1) db (current ++ [ch]) alts errs
      else if ch = ')' then
        let dp2 := dp - 1
        let errs2 := if dp2 < 0 then errs ++ [.unbalancedClose] else errs
        saGo fuel rest dp2 db (current ++ [ch]) alts errs2
      else if ch = '|' ∧ dp = 0 ∧ db = 0 then
        saGo fuel rest dp db [] (alts ++ [trim current]) errs
      else
        saGo fuel rest dp db (current ++ [ch]) alts errs

/-- The alternative splitter and balance checker of the validator:
`splitAlternatives` of ebnf-check.ts lines 60-115. -/
def splitAlternatives (rhs : List Char) : List (List Char) × List SplitErr :=
  saGo rhs.length rhs 0 0 [] [] []

/-- Line terminators of JavaScript: the characters the regular
expression `.` does not match. -/
def isLineTerm (c : Char) : Bool :=
  c = '\n' ∨ c = '\r' ∨ c = '\u2028' ∨ c = '\u2029'

/-- Matching attempt of the quoted-literal removal regular expressions
of `referencedIdents` (ebnf-check.ts lines 121-122): after an opening
quote `q`, an escape pair is consumed whole — except that the `.` of
the escape alternative does not match a line terminator, in which case
the whole attempt at this opening quote fails — and an unescaped `q`
closes the match; `none` when no closing quote is reachable (the
regular expression then fails at this position and the scan moves
on). -/
def tryQuoted (q : Char) : List Char → Option (List Char)
  | [] => none
  | '\\' :: c :: rest => if isLineTerm c then none else tryQuoted q rest
  | '\\' :: [] => none
  | c :: rest => if c = q then some rest else tryQuoted q rest

/-- Matching attempt of the class-removal regular expression
`\[[^\]]*\]` of `referencedIdents` (ebnf-check.ts line 123): the match
runs to the first `]`, with no nesting and no escape handling; `none`
when no `]` follows. -/
def splitAtRBrack : List Char → Option (List Char)
  | [] => none
  | ']' :: rest => some rest
  | _ :: rest => splitAtRBrack rest

/-- Fuelled replacement of every quoted literal by a single space
(ebnf-check.ts lines 121-122): at each quote a match is attempted;
a successful match is replaced by one space, otherwise the scan moves
one character forward. -/
def rmQuotedGo (q : Char) : Nat → List Char → List Char
  | 0, l => l
  | fuel + 1, l =>
    match l with
    | [] => []
    | c :: rest =>
      if c = q then
        match tryQuoted q rest with
        | some rest2 => ' ' :: rmQuotedGo q fuel rest2
        | none => c :: rmQuotedGo q fuel rest
      else c :: rmQuotedGo q fuel rest

/-- Replacement of every `q`-quoted literal by a single space. -/
def rmQuoted (q : Char) (l : List Char) : List Char := rmQuotedGo q l.length l

/-- Fuelled replacement of every `\[[^\]]*\]` match by a single space
(ebnf-check.ts line 123). -/
def rmClassesGo : Nat → List Char → List Char
  | 0, l => l
  | fuel + 1, l =>
    match l with
    | [] => []
    | c :: rest =>
      if c = '[' then
        match splitAtRBrack rest with
        | some rest2 => ' ' :: rmClassesGo fuel rest2
        | none => c :: rmClassesGo fuel rest
      else c :: rmClassesGo fuel rest

/-- Replacement of every character class by a single space. -/
def rmClasses (l : List Char) : List Char := rmClassesGo l.length l

/-- Replacement of the operator characters `( ) ? * +` by spaces
(ebnf-check.ts line 125). -/
def rmOps (l : List Char) : List Char :=
  l.map (fun c =>
    if c = '(' ∨ c = ')' ∨ c = '?' ∨ c = '*' ∨ c = '+' then ' ' else c)

/-- Identifier extraction embedding `s.match(/\b[A-Za-z_]\w*\b/g)`
(ebnf-check.ts line 127): the matches are exactly the maximal runs of
word characters whose first character is a letter or underscore (a run
starting with a digit has no word boundary inside it and is skipped
whole).  The second argument carries the current run state: `none`
outside a run, `some (b, run)` inside a run whose first character was
an identifier start iff `b`, with the run collected in reverse. -/
def exGo : List Char → Option (Bool × List Char) → List (List Char)
  | [], none => []
  | [], some (b, run) => if b then [run.reverse] else []
  | c :: rest, none =>
    if isWordChar c then exGo rest (some (isIdentStart c, [c]))
    else exGo rest none
  | c :: rest, some (b, run) =>
    if isWordChar c then exGo rest (some (b, c :: run))
    else (if b then [run.reverse] else []) ++ exGo rest none

/-- All identifier matches of a character list. -/
def extractIds (l : List Char) : List (List Char) := exGo l none

/-- Reference extraction of the validator: `referencedIdents` of
ebnf-check.ts lines 118-129.  Single-quoted literals, double-quoted
literals and character classes are replaced by spaces in that order,
then the operator characters, and the identifiers of the remainder are
returned in order. -/
def referencedIdents (expr : List Char) : List (List Char) :=
  extractIds (rmOps (rmClasses (rmQuoted '"' (rmQuoted '\'' expr))))

/-- Parenthesized-group sub-loop of `firstIdentifier` (ebnf-check.ts
lines 162-170): plain parenthesis counting with no quote or escape
awareness, returning the remainder after the closing parenthesis (or
the empty remainder when the input runs out). -/
def scanParen : Nat → List Char → List Char
  | _, [] => []
  | d, c :: rest =>
    let d2 := if c = '(' then d + 1 else if c = ')' then d - 1 else d
    if d2 = 0 then rest else scanParen d2 rest

/-- Fuelled leading-group skipping of `firstIdentifier` (ebnf-check.ts
lines 136-173): the text is trimmed, then a leading quoted literal,
character class or parenthesized group is consumed, repeatedly. -/
def skipLeadingGo : Nat → List Char → List Char
  | 0, s => trim s
  | fuel + 1, s =>
    match trim s with
    | '\'' :: rest => skipLeadingGo fuel (scanString '\'' rest).2
    | '"' :: rest => skipLeadingGo fuel (scanString '"' rest).2
    | '[' :: rest => skipLeadingGo fuel (scanClass 1 rest).2
    | '(' :: rest => skipLeadingGo fuel (scanParen 1 rest)
    | t => t

/-- Leading-group skipping with sufficient fuel. -/
def skipLeading (s : List Char) : List Char := skipLeadingGo s.length s

/-- First identifier of an alternative: `firstIdentifier` of
ebnf-check.ts lines 132-176.  Leading quoted literals, character
classes and parenthesized groups are skipped, then the first match of
`\b[A-Za-z_]\w*\b` is returned (the head of all identifier matches). -/
def firstIdentifier (expr : List Char) : Option (List Char) :=
  (extractIds (skipLeading (trim expr))).head?

/-- Matching attempt of the rule-extraction regular expression of
ebnf-check.ts (line 44), at one anchor position, on the text after
the anchor: skip whitespace, read an identifier, skip whitespace,
require the literal `::=`, and end the match at the first `;` — the
lazy middle group `[\s\S]*?` stops at the first position from which
optional whitespace reaches a `;`, so the raw rhs is everything
before the FIRST `;`, regardless of parenthesis depth or quoting.
Returns the name, the trimmed rhs and the text after the `;`, or
`none` when the attempt fails. -/
def tryRule (l : List Char) : Option (List Char × List Char × List Char) :=
  match l.dropWhile isWsChar with
  | c :: r =>
    if isIdentStart c then
      match (r.dropWhile isWordChar).dropWhile isWsChar with
      | ':' :: ':' :: '=' :: l3 =>
        let before := l3.takeWhile (fun x => ¬ x = ';')
        match l3.dropWhile (fun x => ¬ x = ';') with
        | _ :: after => some (c :: r.takeWhile isWordChar, trim before, after)
        | [] => none
      | _ => none
    else none
  | [] => none

/-- Fuelled scan of the global regex loop of `extractRules` in
ebnf-check.ts (lines 42-54): every match after the start-of-text
attempt must be anchored at a literal line feed (the `^` of the
anchor group matches only at the start of the text); a successful
match consumes through its terminating `;`, and the recorded line is
one plus the number of line feeds strictly before the anchor. -/
def excGo : Nat → List Char → Nat → List CRule
  | 0, _, _ => []
  | fuel + 1, l, nl =>
    match l with
    | [] => []
    | c :: rest =>
      if c = '\n' then
        match tryRule rest with
        | some (name, rhs, after) =>
          ⟨name, rhs, nl + 1⟩ ::
            excGo fuel after (nl + 1 + (rest.count '\n' - after.count '\n'))
        | none => excGo fuel rest (nl + 1)
      else excGo fuel rest nl

/-- The rule extractor of the validator: `extractRules` of
ebnf-check.ts lines 42-54, regex based (contrast with the token-level
`extractPRules` of the formatting path). -/
def extractCRules (src : List Char) : List CRule :=
  match tryRule src with
  | some (name, rhs, after) =>
    ⟨name, rhs, 1⟩ :: excGo after.length after (src.count '\n' - after.count '\n')
  | none => excGo src.length src 0

/-- Findings of the validator (ebnf-check.ts `errors` and `warnings`
lists), modelling the pushed message strings as data: `dup` carries
the duplicated name with the duplicate line and the first-occurrence
line; `balance` carries a finding of `splitAlternatives` with its rule
context; `undefToken` is the warning about an uppercase identifier not
defined as a lexer rule; `undefRule` is the error about an undefined
rule reference; `leftRec` is the direct-left-recursion warning with
the offending alternative; `unreachable` carries the unreachable rule
and the start rule; `noStart` is the warning emitted when the file has
no rules. -/
inductive Finding where
  | dup (name : List Char) (line : Nat) (firstLine : Nat)
  | balance (rule : List Char) (line : Nat) (e : SplitErr)
  | undefToken (rule : List Char) (line : Nat) (id : List Char)
  | undefRule (rule : List Char) (line : Nat) (id : List Char)
  | leftRec (rule : List Char) (line : Nat) (alt : List Char)
  | unreachable (rule : List Char) (line : Nat) (start : List Char)
  | noStart
  deriving DecidableEq

/-- Duplicate-check loop of ebnf-check.ts lines 197-206: the map
`seen` (first-occurrence line per name, modelled as an association
list with no duplicate keys) is consulted for each rule; a hit emits a
duplicate finding and leaves the map unchanged, a miss records the
line. -/
def dupGo : List CRule → List (List Char × Nat) → List Finding
  | [], _ => []
  | r :: rest, seen =>
    match seen.lookup r.name with
    | some first => .dup r.name r.line first :: dupGo rest seen
    | none => dupGo rest ((r.name, r.line) :: seen)

/-- The duplicate check of the validator (ebnf-check.ts lines
196-206). -/
def dupCheck (rules : List CRule) : List Finding := dupGo rules []

/-- Duplicate findings as the specification words them: every rule
whose name already occurred earlier produces one finding carrying its
own line and the line of the first occurrence of that name.  This
definition follows the wording of the specification and is compared
with `dupCheck`. -/
def dupErrorsSpec : List CRule → List CRule → List Finding
  | _, [] => []
  | pre, r :: rest =>
    match pre.find? (fun p => p.name == r.name) with
    | some p => .dup r.name r.line p.line :: dupErrorsSpec (pre ++ [r]) rest
    | none => dupErrorsSpec (pre ++ [r]) rest

/-- Outcome of the reference classification of one identifier in the
per-rule loop of ebnf-check.ts lines 218-232. -/
inductive IdAction where
  | dep
  | warnTok
  | errUndef
  | skip
  deriving DecidableEq

/-- Reference classification of one identifier (ebnf-check.ts lines
218-232, branch for branch): the rule name itself or any defined rule
name becomes a dependency; an uppercase identifier not among the
uppercase rule names yields the undefined-token warning; any other
identifier not among the rule names yields the undefined-rule
error. -/
def classifyId (rNames uNames : List (List Char)) (rname id : List Char) : IdAction :=
  if id = rname then .dep
  else if id ∈ rNames then .dep
  else if isUpperIdent id then
    (if id ∈ uNames then .skip else .warnTok)
  else if ¬ isUpperIdent id then
    (if id ∈ rNames then .skip else .errUndef)
  else .skip

/-- Set insertion in declaration order, modelling `Set.prototype.add`
membership semantics. -/
def addDep (deps : List (List Char)) (id : List Char) : List (List Char) :=
  if id ∈ deps then deps else deps ++ [id]

/-- Per-identifier loop of one alternative (ebnf-check.ts lines
218-233), threading the dependency set and the error and warning
lists. -/
def processIds (rNames uNames : List (List Char)) (rname : List Char) (line : Nat) :
    List (List Char) → List (List Char) → List Finding → List Finding →
    List (List Char) × List Finding × List Finding
  | [], deps, errs, warns => (deps, errs, warns)
  | id :: ids, deps, errs, warns =>
    match classifyId rNames uNames rname id with
    | .dep => processIds rNames uNames rname line ids (addDep deps id) errs warns
    | .warnTok => processIds rNames uNames rname line ids deps errs (warns ++ [.undefToken rname line id])
    | .errUndef => processIds rNames uNames rname line ids deps (errs ++ [.undefRule rname line id]) warns
    | .skip => processIds rNames uNames rname line ids deps errs warns

/-- Processing of one alternative (ebnf-check.ts lines 215-239):
classify its referenced identifiers, then emit the left-recursion
warning when its first identifier equals the rule name. -/
def processAlt (rNames uNames : List (List Char)) (rname : List Char) (line : Nat)
    (alt : List Char) (st : List (List Char) × List Finding × List Finding) :
    List (List Char) × List Finding × List Finding :=
  let p := processIds rNames uNames rname line (referencedIdents alt) st.1 st.2.1 st.2.2
  if firstIdentifier alt = some rname then
    (p.1, p.2.1, p.2.2 ++ [.leftRec rname line alt])
  else p

/-- Processing of one rule (ebnf-check.ts lines 210-240): split the
right-hand side, report its balance findings in rule context, then
process every alternative in order.  Returns the dependency set, the
errors and the warnings of this rule. -/
def processRule (rNames uNames : List (List Char)) (r : CRule) :
    List (List Char) × List Finding × List Finding :=
  let p := splitAlternatives r.rhs
  let errs0 := p.2.map (fun e => Finding.balance r.name r.line e)
  p.1.foldl (fun st alt => processAlt rNames uNames r.name r.line alt st) ([], errs0, [])

/-- Start-rule selection (ebnf-check.ts lines 189-191): the override
when nonempty, else the first rule with a lowercase-identifier name,
else the first rule, else the empty name. -/
def startRuleOf (override : List Char) (rules : List CRule) : List Char :=
  if override ≠ [] then override
  else
    match rules.find? (fun r => isLowerIdent r.name) with
    | some r => r.name
    | none =>
      match rules with
      | r :: _ => r.name
      | [] => []

/-- Fuel bound for the reachability loop: one step per stack pop plus
one extra pop per graph entry and one per recorded edge. -/
def graphFuel (g : List (List Char × List (List Char))) : Nat :=
  1 + (g.map (fun e => 1 + e.2.length)).sum

/-- Fuelled reachability traversal (ebnf-check.ts lines 247-255): pop
the top of the stack, skip it when already reachable, else record it
and push its not-yet-reachable dependencies.  The stack top is the
list head; pushed dependencies are reversed so that pops follow the
source order. -/
def reachGo (g : List (List Char × List (List Char))) :
    Nat → List (List Char) → List (List Char) → List (List Char)
  | 0, _, reachable => reachable
  | fuel + 1, stack, reachable =>
    match stack with
    | [] => reachable
    | cur :: rest =>
      if cur ∈ reachable then reachGo g fuel rest reachable
      else
        let reachable2 := reachable ++ [cur]
        match g.lookup cur with
        | none => reachGo g fuel rest reachable2
        | some deps =>
          reachGo g fuel ((deps.filter (fun d => ¬ d ∈ reachable2)).reverse ++ rest) reachable2

/-- Result of the validator core: the ordered error list, the ordered
warning list and the dependency graph (an association list in which
the entry set most recently is found first, modelling the overwrite
semantics of `Map.prototype.set`). -/
structure AnalyzerResult where
  errors : List Finding
  warnings : List Finding
  depGraph : List (List Char × List (List Char))
  deriving DecidableEq

/-- The dependency analyzer of ebnf-check.ts lines 183-261: rule-name
collection, start-rule inference, the duplicate check, the per-rule
loop building the dependency graph (one `set` per rule occurrence, in
declaration order), and the reachability check warning about every
lowercase-named rule not reachable from the start rule. -/
def analyze (rules : List CRule) (startOverride : List Char) : AnalyzerResult :=
  let rNames := rules.map (fun r => r.name)
  let uNames := rNames.filter isUpperIdent
  let startRule := startRuleOf startOverride rules
  let dupErrs := dupCheck rules
  let step := rules.foldl
    (fun (st : List (List Char × List (List Char)) × List Finding × List Finding) r =>
      let p := processRule rNames uNames r
      ((r.name, p.1) :: st.1, st.2.1 ++ p.2.1, st.2.2 ++ p.2.2))
    ([], dupErrs, [])
  let depGraph := step.1
  if startRule = [] then
    ⟨step.2.1, step.2.2 ++ [.noStart], depGraph⟩
  else
    let reachable := reachGo depGraph (graphFuel depGraph) [startRule] []
    let unreach := (rules.filter
      (fun r => ¬ r.name ∈ reachable ∧ isLowerIdent r.name)).map
      (fun r => Finding.unreachable r.name r.line startRule)
    ⟨step.2.1, step.2.2 ++ unreach, depGraph⟩

/-! Helper lemmas about the scanner. -/

theorem scanToStarParen_append (l : List Char) :
    (scanToStarParen l).1 ++ (scanToStarParen l).2 = l := by
  induction l using scanToStarParen.induct <;> simp [scanToStarParen, *]

theorem scanToStarParen_len (l : List Char) :
    (scanToStarParen l).2.length ≤ l.length := by
  induction l using scanToStarParen.induct <;>
    simp [scanToStarParen] <;> omega

theorem scanToStarSlash_append (l : List Char) :
    (scanToStarSlash l).1 ++ (scanToStarSlash l).2 = l := by
  induction l using scanToStarSlash.induct <;> simp [scanToStarSlash, *]

theorem scanToStarSlash_len (l : List Char) :
    (scanToStarSlash l).2.length ≤ l.length := by
  induction l using scanToStarSlash.induct <;>
    simp [scanToStarSlash] <;> omega

theorem scanString_append (q : Char) (l : List Char) :
    (scanString q l).1 ++ (scanString q l).2 = l := by
  induction l using scanString.induct q <;> simp [scanString, *]

theorem scanString_len (q : Char) (l : List Char) :
    (scanString q l).2.length ≤ l.length := by
  induction l using scanString.induct q <;> simp [scanString, *] <;> omega

theorem scanClass_append (d : Nat) (l : List Char) :
    (scanClass d l).1 ++ (scanClass d l).2 = l := by
  induction d, l using scanClass.induct with
  | case1 d => simp [scanClass]
  | case2 d c rest ih => simp [scanClass, ih]
  | case3 d c rest hne d2 h =>
    have h2 : (if c = '[' then d + 1 else if c = ']' then d - 1 else d) = 0 := h
    simp only [scanClass]
    rw [if_pos h2]
    simp
  | case4 d c rest hne d2 h ih =>
    have h2 : ¬ (if c = '[' then d + 1 else if c = ']' then d - 1 else d) = 0 := h
    have ih2 : (scanClass (if c = '[' then d + 1 else if c = ']' then d - 1 else d) rest).1 ++
        (scanClass (if c = '[' then d + 1 else if c = ']' then d - 1 else d) rest).2 = rest := ih
    simp only [scanClass]
    rw [if_neg h2]
    simpa using ih2

theorem scanClass_len (d : Nat) (l : List Char) :
    (scanClass d l).2.length ≤ l.length := by
  induction d, l using scanClass.induct with
  | case1 d => simp [scanClass]
  | case2 d c rest ih => simp [scanClass]; omega
  | case3 d c rest hne d2 h =>
    have h2 : (if c = '[' then d + 1 else if c = ']' then d - 1 else d) = 0 := h
    simp only [scanClass]
    rw [if_pos h2]
    simp
  | case4 d c rest hne d2 h ih =>
    have h2 : ¬ (if c = '[' then d + 1 else if c = ']' then d - 1 else d) = 0 := h
    have ih2 : (scanClass (if c = '[' then d + 1 else if c = ']' then d - 1 else d) rest).2.length ≤
        rest.length := ih
    simp only [scanClass]
    rw [if_neg h2]
    simp only [List.length_cons]
    omega

theorem nextTok_none {l : List Char} (h : nextTok l = none) : l = [] := by
  cases l with
  | nil => rfl
  | cons c cs =>
    simp only [nextTok] at h
    split_ifs at h

/-- One scanner step consumes exactly a prefix of the input: the token
text followed by the remainder is the input, and the remainder is
strictly shorter. -/
theorem nextTok_spec (c : Char) (cs : List Char) (t : Tok) (rest : List Char)
    (h : nextTok (c :: cs) = some (t, rest)) :
    t.text ++ rest = c :: cs ∧ rest.length ≤ cs.length := by
  simp only [nextTok] at h
  split_ifs at h with h1 h2 h3 h4 h5 h6 h7 h8 h9 <;>
    injection h with h <;> injection h with ht hr <;> subst ht <;> subst hr
  · exact ⟨by simp [List.takeWhile_append_dropWhile],
      (List.dropWhile_sublist _).length_le⟩
  · obtain ⟨rfl, hh⟩ := h2
    cases cs with
    | nil => simp at hh
    | cons c2 cs2 =>
      simp at hh; subst hh
      refine ⟨by simpa using scanToStarParen_append cs2, ?_⟩
      simpa using Nat.le_succ_of_le (scanToStarParen_len cs2)
  · obtain ⟨rfl, hh⟩ := h3
    cases cs with
    | nil => simp at hh
    | cons c2 cs2 =>
      simp at hh; subst hh
      refine ⟨by simp [List.takeWhile_append_dropWhile], ?_⟩
      simpa using Nat.le_succ_of_le (List.dropWhile_sublist _).length_le
  · obtain ⟨rfl, hh⟩ := h4
    cases cs with
    | nil => simp at hh
    | cons c2 cs2 =>
      simp at hh; subst hh
      refine ⟨by simpa using scanToStarSlash_append cs2, ?_⟩
      simpa using Nat.le_succ_of_le (scanToStarSlash_len cs2)
  · exact ⟨by simpa using scanString_append c cs, scanString_len c cs⟩
  · exact ⟨by rw [h6]; simpa using scanClass_append 1 cs, scanClass_len 1 cs⟩
  · obtain ⟨rfl, hh⟩ := h7
    constructor
    · have := List.take_append_drop 2 cs
      rw [hh] at this
      simpa using this
    · simp only [List.length_drop]
      omega
  · exact ⟨rfl, le_refl _⟩
  · exact ⟨by simp [List.takeWhile_append_dropWhile],
      (List.dropWhile_sublist _).length_le⟩
  · exact ⟨rfl, le_refl _⟩

theorem tokloop_flat (fuel : Nat) (l : List Char) (hf : l.length ≤ fuel) :
    ((tokloop fuel l).map Tok.text).flatten = l := by
  induction fuel generalizing l with
  | zero =>
    have hl : l = [] := List.length_eq_zero.mp (Nat.le_zero.mp hf)
    subst hl
    simp [tokloop]
  | succ fuel ih =>
    rw [tokloop]
    match hn : nextTok l with
    | none => simpa using (nextTok_none hn).symm
    | some (t, rest) =>
      cases l with
      | nil => simp [nextTok] at hn
      | cons c cs =>
        obtain ⟨happ, hlen⟩ := nextTok_spec c cs t rest hn
        simp only [List.map_cons, List.flatten_cons]
        rw [ih rest (by simpa using Nat.le_trans hlen (Nat.le_of_succ_le_succ hf))]
        exact happ

theorem tokloop_nil (fuel : Nat) : tokloop fuel [] = [] := by
  cases fuel <;> simp [tokloop, nextTok]

theorem scanString_clean (q : Char) (cs : List Char) :
    (∀ c ∈ cs, ¬ c = q ∧ ¬ c = '\\') → scanString q cs = (cs, []) := by
  induction cs using scanString.induct q with
  | case1 => intro _; simp [scanString]
  | case2 c rest ih =>
    intro h
    exact absurd rfl (h '\\' (by simp)).2
  | case3 rest hne =>
    intro h
    exact absurd rfl (h q (by simp)).1
  | case4 c rest hne hcq ih =>
    intro h
    have ih2 := ih (fun x hx => h x (by simp [hx]))
    simp only [scanString]
    rw [if_neg hcq]
    simp [ih2]

theorem scanClass_stay (d : Nat) (cs : List Char) :
    ¬ d = 0 → (∀ c ∈ cs, ¬ c = '[' ∧ ¬ c = ']' ∧ ¬ c = '\\') →
    scanClass d cs = (cs, []) := by
  induction d, cs using scanClass.induct with
  | case1 d => intro _ _; simp [scanClass]
  | case2 d c rest ih =>
    intro _ h
    exact absurd rfl (h '\\' (by simp)).2.2
  | case3 d c rest hne d2 h0 =>
    intro hd h
    obtain ⟨h1, h2, _⟩ := h c (by simp)
    have e : (if c = '[' then d + 1 else if c = ']' then d - 1 else d) = d := by
      rw [if_neg h1, if_neg h2]
    have h0e : (if c = '[' then d + 1 else if c = ']' then d - 1 else d) = 0 := h0
    rw [e] at h0e
    exact absurd h0e hd
  | case4 d c rest hne d2 hne0 ih =>
    intro hd h
    obtain ⟨h1, h2, _⟩ := h c (by simp)
    have e : (if c = '[' then d + 1 else if c = ']' then d - 1 else d) = d := by
      rw [if_neg h1, if_neg h2]
    have hne0e : ¬ (if c = '[' then d + 1 else if c = ']' then d - 1 else d) = 0 := hne0
    have ih2 : scanClass (if c = '[' then d + 1 else if c = ']' then d - 1 else d) rest = (rest, []) :=
      ih hne0 (fun x hx => h x (by simp [hx]))
    simp only [scanClass]
    rw [if_neg hne0e]
    simp [ih2]

theorem scanToStarParen_all (cs : List Char) :
    (¬ ∃ a b, cs = a ++ '*' :: ')' :: b) → scanToStarParen cs = (cs, []) := by
  induction cs using scanToStarParen.induct with
  | case1 => intro _; simp [scanToStarParen]
  | case2 rest => intro h; exact absurd ⟨[], rest, rfl⟩ h
  | case3 c rest hne ih =>
    intro h
    have ih2 := ih (by
      rintro ⟨a, b, hab⟩
      exact h ⟨c :: a, b, by simp [hab]⟩)
    simp [scanToStarParen, ih2]

/-- Claim C1.  Losslessness of scanning: for every input text the
concatenation of the text fields of the tokens returned by the Token
Scanner (`tokenize` of ebnf-prettify.ts and its identical copy
`tokenizeEBNF` of g4-to-ebnf.ts) is exactly the input; no characters
are dropped or duplicated. -/
theorem C1_scanner_lossless (l : List Char) :
    ((tokenize l).map Tok.text).flatten = l :=
  tokloop_flat l.length l (le_refl _)

/-- Claim C2.  Scanner totality and graceful degradation: the scanner
is a total function, and an unterminated quoted literal, character
class or block comment is emitted as a single token whose text runs to
the end of the input instead of failing.  The three conjuncts exhibit
the three degraded forms: a quote followed only by characters that can
close nothing, an unmatched `[` followed by plain characters, and a
`(*` never followed by `*)`. -/
theorem C2_scanner_total_graceful :
    (∀ (q : Char) (cs : List Char), (q = '\'' ∨ q = '"') →
      (∀ c ∈ cs, ¬ c = q ∧ ¬ c = '\\') →
      tokenize (q :: cs) = [⟨.str, q :: cs⟩]) ∧
    (∀ cs : List Char, (∀ c ∈ cs, ¬ c = '[' ∧ ¬ c = ']' ∧ ¬ c = '\\') →
      tokenize ('[' :: cs) = [⟨.charclass, '[' :: cs⟩]) ∧
    (∀ cs : List Char, (¬ ∃ a b, cs = a ++ '*' :: ')' :: b) →
      tokenize ('(' :: '*' :: cs) = [⟨.comment, '(' :: '*' :: cs⟩]) := by
  refine ⟨?_, ?_, ?_⟩
  · intro q cs hq h
    have hs := scanString_clean q cs h
    have hn : nextTok (q :: cs) = some (⟨.str, q :: cs⟩, []) := by
      rcases hq with rfl | rfl <;> simp +decide [nextTok, hs]
    rw [tokenize]
    simp only [List.length_cons]
    rw [tokloop, hn]
    simp [tokloop_nil]
  · intro cs h
    have hs := scanClass_stay 1 cs (by decide) h
    have hn : nextTok ('[' :: cs) = some (⟨.charclass, '[' :: cs⟩, []) := by
      simp +decide [nextTok, hs]
    rw [tokenize]
    simp only [List.length_cons]
    rw [tokloop, hn]
    simp [tokloop_nil]
  · intro cs hx
    have hs := scanToStarParen_all cs hx
    have hn : nextTok ('(' :: '*' :: cs) = some (⟨.comment, '(' :: '*' :: cs⟩, []) := by
      simp +decide [nextTok, hs]
    rw [tokenize]
    simp only [List.length_cons]
    rw [tokloop, hn]
    simp [tokloop_nil]

/-- Witness for C2: the three degradation conjuncts applied at the
concrete unterminated inputs. -/
theorem C2_scanner_total_graceful_witness :
    tokenize ['\'', 'a', 'b'] = [⟨.str, ['\'', 'a', 'b']⟩] ∧
    tokenize ['[', 'x'] = [⟨.charclass, ['[', 'x']⟩] ∧
    tokenize ['(', '*', 'h', 'i'] = [⟨.comment, ['(', '*', 'h', 'i']⟩] :=
  ⟨C2_scanner_total_graceful.1 '\'' ['a', 'b'] (Or.inl rfl) (by decide),
   C2_scanner_total_graceful.2.1 ['x'] (by decide),
   C2_scanner_total_graceful.2.2 ['h', 'i'] (by
     rintro ⟨a, b, hab⟩
     rcases a with _ | ⟨c1, _ | ⟨c2, _ | _⟩⟩ <;> simp at hab)⟩

theorem depthFold_cons (d : Nat) (tk : Tok) (l : List Tok) :
    depthFold d (tk :: l) = depthFold (stepDepth d tk) l := by
  simp [depthFold]

/-- Counterexample for C3: the claim also covers the regex-based Rule
Extractor of ebnf-check.ts, whose lazy middle group ends the rhs at
the first `;` anywhere; on `a ::= ( x ; y ) ;` the emitted rhs is
`( x`, cut at the `;` inside the parenthesized group (parenthesis
depth 1), not the claimed `( x ; y )` that ends at the first
depth-zero `;`. -/
theorem C3_extractor_terminator_counterexample :
    extractCRules (chars "a ::= ( x ; y ) ;") = [⟨chars "a", chars "( x", 1⟩] ∧
    ¬ extractCRules (chars "a ::= ( x ; y ) ;") =
      [⟨chars "a", chars "( x ; y )", 1⟩] := by
  constructor <;> decide

/-- Claim C3, amended.  The token-level Rule Extractor of
ebnf-prettify.ts behaves exactly as claimed: its rhs accumulation
tracks parenthesis depth (incremented on an operator `(`, decremented
on `)`, floored at zero by `stepDepth`) and ends exactly at the first
`;` operator token seen at depth zero — either no such token exists
and the rhs is the whole input with nothing left, or the input is the
rhs followed by that terminator and the remainder, no token of the
rhs being a depth-zero `;` — so there a `;` at positive depth, or
inside a quoted literal (packed into a single non-operator token by
the scanner), never terminates the rule and stays inside the rhs.
The regex-based extractor of ebnf-check.ts, however, ends every rhs
at the first `;` character regardless of parenthesis depth or
quoting (final conjunct, evaluated at the counterexample input). -/
theorem C3_extractor_terminator_amended (d : Nat) (toks rhs rest : List Tok)
    (h : collectRhs d toks = (rhs, rest)) :
    ((∀ pre s post, rhs = pre ++ s :: post → ¬ isTopSemi (depthFold d pre) s) ∧
     ((rest = [] ∧ rhs = toks) ∨
       ∃ s, toks = rhs ++ s :: rest ∧ isTopSemi (depthFold d rhs) s)) ∧
    extractCRules (chars "a ::= ( x ; y ) ;") = [⟨chars "a", chars "( x", 1⟩] := by
  refine ⟨?_, by decide⟩
  induction toks generalizing d rhs rest with
  | nil =>
    simp only [collectRhs, Prod.mk.injEq] at h
    obtain ⟨h1, h2⟩ := h
    subst h1; subst h2
    refine ⟨?_, Or.inl ⟨rfl, rfl⟩⟩
    rintro pre s post hpre
    simp at hpre
  | cons tk rest' ih =>
    simp only [collectRhs] at h
    by_cases hcond : tk.type = .op ∧ tk.text = [';'] ∧ stepDepth d tk = 0
    · rw [if_pos hcond] at h
      injection h with h1 h2
      subst h1; subst h2
      refine ⟨?_, Or.inr ⟨tk, by simp, hcond.1, hcond.2.1, hcond.2.2⟩⟩
      rintro pre s post hpre
      simp at hpre
    · rw [if_neg hcond] at h
      injection h with h1 h2
      subst h1; subst h2
      obtain ⟨ihA, ihB⟩ := ih (stepDepth d tk) _ _ rfl
      constructor
      · rintro pre s post hpre
        cases pre with
        | nil =>
          simp only [List.nil_append, List.cons.injEq] at hpre
          obtain ⟨rfl, -⟩ := hpre
          simpa [isTopSemi, depthFold] using hcond
        | cons p0 pres =>
          simp only [List.cons_append, List.cons.injEq] at hpre
          obtain ⟨rfl, hpre2⟩ := hpre
          rw [depthFold_cons]
          exact ihA pres s post hpre2
      · rcases ihB with ⟨hrest, hrhs⟩ | ⟨s, hs1, hs2⟩
        · exact Or.inl ⟨hrest, by rw [hrhs]⟩
        · refine Or.inr ⟨s, by rw [List.cons_append, ← hs1], ?_⟩
          rw [depthFold_cons]
          exact hs2

/-- Concrete input of the C3 witness: an identifier, a depth-zero
terminator and a trailing identifier. -/
def c3toks : List Tok := [⟨.ident, ['A']⟩, ⟨.op, [';']⟩, ⟨.ident, ['B']⟩]

/-- The rhs extracted from `c3toks`. -/
def c3rhs : List Tok := [⟨.ident, ['A']⟩]

/-- The remainder after the terminator of `c3toks`. -/
def c3rest : List Tok := [⟨.ident, ['B']⟩]

/-- Witness for C3: the amended theorem applied at a concrete token
list whose rhs accumulation stops at the `;`. -/
theorem C3_extractor_terminator_amended_witness :
    ((∀ pre s post, c3rhs = pre ++ s :: post → ¬ isTopSemi (depthFold 0 pre) s) ∧
     ((c3rest = [] ∧ c3rhs = c3toks) ∨
       ∃ s, c3toks = c3rhs ++ s :: c3rest ∧ isTopSemi (depthFold 0 c3rhs) s)) ∧
    extractCRules (chars "a ::= ( x ; y ) ;") = [⟨chars "a", chars "( x", 1⟩] :=
  C3_extractor_terminator_amended 0 c3toks c3rhs c3rest (by decide)

theorem stlaGo_len (input : List Tok) (d : Nat) (cur : List Tok) (alts : List (List Tok)) :
    alts.length + 1 ≤ (stlaGo input d cur alts).length := by
  induction input generalizing d cur alts with
  | nil => simp [stlaGo]
  | cons tk rest ih =>
    simp only [stlaGo]
    split_ifs with hcond
    · have h2 := ih (stepDepth d tk) [] (alts ++ [cur])
      simp only [List.length_append, List.length_cons] at h2
      omega
    · exact ih (stepDepth d tk) (cur ++ [tk]) alts

theorem stlaGo_nobar (input : List Tok) (d : Nat) (cur : List Tok) (alts : List (List Tok))
    (h : hasTopBar d input = false) :
    stlaGo input d cur alts = alts ++ [cur ++ input] := by
  induction input generalizing d cur alts with
  | nil => simp [stlaGo]
  | cons tk rest ih =>
    simp only [hasTopBar] at h
    simp only [stlaGo]
    split_ifs at h ⊢ with hcond
    rw [ih (stepDepth d tk) (cur ++ [tk]) alts h]
    simp

/-- Counterexample for C4: the string-level Alternative Splitter of
the validator (`splitAlternatives` of ebnf-check.ts, cited by the
claim) returns zero alternatives on a completely empty rhs, because
its trailing alternative is only pushed when its trimmed text is
nonempty; this contradicts the claimed minimum of one alternative
equal to the whole input. -/
theorem C4_splitter_minimum_counterexample :
    splitAlternatives [] = ([], []) ∧ ¬ 1 ≤ (splitAlternatives []).1.length := by
  constructor <;> decide

/-- Claim C4, amended.  The token-level Alternative Splitter
(`splitTopLevelAlternatives` of ebnf-prettify.ts) always returns at
least one alternative, and an rhs with no depth-zero `|` operator
token (including an empty rhs) yields exactly one alternative equal to
the whole input; the string-level `splitAlternatives` of ebnf-check.ts
however drops a trailing alternative whose trimmed text is empty, so a
completely empty rhs yields zero alternatives there. -/
theorem C4_splitter_minimum_amended :
    (∀ rhs : List Tok, 1 ≤ (splitTopLevelAlternatives rhs).length) ∧
    (∀ rhs : List Tok, hasTopBar 0 rhs = false → splitTopLevelAlternatives rhs = [rhs]) ∧
    (splitAlternatives []).1 = [] := by
  refine ⟨?_, ?_, by decide⟩
  · intro rhs
    simpa using stlaGo_len rhs 0 [] []
  · intro rhs h
    simpa using stlaGo_nobar rhs 0 [] [] h

/-- Witness for C4: the amended theorem applied at a one-token rhs
with no alternation operator. -/
theorem C4_splitter_minimum_amended_witness :
    1 ≤ (splitTopLevelAlternatives [(⟨.ident, ['A']⟩ : Tok)]).length ∧
    splitTopLevelAlternatives [(⟨.ident, ['A']⟩ : Tok)] = [[⟨.ident, ['A']⟩]] :=
  ⟨C4_splitter_minimum_amended.1 [⟨.ident, ['A']⟩],
   C4_splitter_minimum_amended.2.1 [⟨.ident, ['A']⟩] (by decide)⟩

theorem saFinish_empty (dp : Int) (db : Nat) (current : List Char)
    (alts : List (List Char)) (errs : List SplitErr)
    (h : [] ∈ (saFinish dp db current alts errs).1) :
    SplitErr.emptyAlt ∈ (saFinish dp db current alts errs).2 := by
  simp only [saFinish] at h ⊢
  have hany : ((if (trim current).length ≠ 0 then alts ++ [trim current] else alts).any
      (fun a => a.isEmpty)) = true :=
    List.any_eq_true.mpr ⟨[], h, rfl⟩
  rw [if_pos hany]
  simp

theorem saGo_empty (fuel : Nat) (l : List Char) (dp : Int) (db : Nat)
    (current : List Char) (alts : List (List Char)) (errs : List SplitErr)
    (h : [] ∈ (saGo fuel l dp db current alts errs).1) :
    SplitErr.emptyAlt ∈ (saGo fuel l dp db current alts errs).2 := by
  induction fuel generalizing l dp db current alts errs with
  | zero => exact saFinish_empty _ _ _ _ _ h
  | succ fuel ih =>
    cases l with
    | nil => exact saFinish_empty _ _ _ _ _ h
    | cons ch rest =>
      simp only [saGo] at h ⊢
      split_ifs at h ⊢ <;> exact ih _ _ _ _ _ _ h

/-- Counterexample for C5: the rhs `A |` has an empty alternative
between its depth-zero `|` and the rule terminator, yet the analyzer
reports nothing: the splitter pushes the trailing alternative only
when its trimmed text is nonempty, so the empty final segment is
dropped without any finding. -/
theorem C5_empty_alternative_counterexample :
    splitAlternatives (chars "A |") = ([chars "A"], []) ∧
    ¬ SplitErr.emptyAlt ∈ (splitAlternatives (chars "A |")).2 := by
  constructor <;> decide

/-- Claim C5, amended.  An empty alternative delimited on the right by
a depth-zero `|` (between two bars, or between the rule head and the
first bar) enters the emitted alternative list as an empty string and
is always reported by the empty-alternative finding; an empty
alternative between the last `|` and the terminating `;` is dropped
silently instead. -/
theorem C5_empty_alternative_amended (rhs : List Char) (alts : List (List Char))
    (errs : List SplitErr) (h : splitAlternatives rhs = (alts, errs))
    (he : [] ∈ alts) : SplitErr.emptyAlt ∈ errs := by
  have h2 := saGo_empty rhs.length rhs 0 0 [] [] []
  rw [show saGo rhs.length rhs 0 0 [] [] [] = (alts, errs) from h] at h2
  exact h2 he

/-- Witness for C5: the amended theorem applied to the rhs `| A`,
whose leading empty alternative is reported. -/
theorem C5_empty_alternative_amended_witness :
    SplitErr.emptyAlt ∈ [SplitErr.emptyAlt] :=
  C5_empty_alternative_amended (chars "| A") [[], chars "A"] [SplitErr.emptyAlt]
    (by decide) (by decide)

theorem dupGo_eq (rest : List CRule) :
    ∀ (seen : List (List Char × Nat)) (pre : List CRule),
    (∀ n, seen.lookup n = (pre.find? (fun p => p.name == n)).map (fun p => p.line)) →
    dupGo rest seen = dupErrorsSpec pre rest := by
  induction rest with
  | nil => intro seen pre hinv; simp [dupGo, dupErrorsSpec]
  | cons r rest ih =>
    intro seen pre hinv
    simp only [dupGo, dupErrorsSpec]
    rw [hinv r.name]
    cases hfind : pre.find? (fun p => p.name == r.name) with
    | some p =>
      show Finding.dup r.name r.line p.line :: dupGo rest seen =
        Finding.dup r.name r.line p.line :: dupErrorsSpec (pre ++ [r]) rest
      congr 1
      apply ih
      intro n
      rw [hinv n, List.find?_append]
      cases hn : pre.find? (fun p => p.name == n) with
      | some q => simp
      | none =>
        by_cases hrn : r.name = n
        · rw [← hrn] at hn
          rw [hn] at hfind
          simp at hfind
        · have h2 : (r.name == n) = false := by simpa using hrn
          simp [List.find?, h2]
    | none =>
      show dupGo rest ((r.name, r.line) :: seen) = dupErrorsSpec (pre ++ [r]) rest
      apply ih
      intro n
      by_cases hrn : r.name = n
      · subst hrn
        rw [List.find?_append, hfind]
        simp [List.lookup, List.find?]
      · have h1 : (n == r.name) = false := by
          simpa using fun e => hrn e.symm
        have h2 : (r.name == n) = false := by simpa using hrn
        simp only [List.lookup, h1]
        rw [hinv n, List.find?_append]
        cases hn : pre.find? (fun p => p.name == n) with
        | some q => simp
        | none => simp [List.find?, h2]

/-- Claim C6.  Duplicate detection: the first occurrence of each rule
name is the one retained in the seen map, and every later occurrence
of the same name produces exactly one duplicate finding carrying the
duplicate line and the line of the first occurrence (`dupErrorsSpec`
restates this from the specification wording); for the rules
`ID ::= \'a\' ;` and `ID ::= \'b\' ;` on lines 1 and 2 exactly one
duplicate finding is produced, referencing line 2 and line 1. -/
theorem C6_duplicate_detection :
    (∀ rules : List CRule, dupCheck rules = dupErrorsSpec [] rules) ∧
    dupCheck [⟨chars "ID", ['\'', 'a', '\''], 1⟩, ⟨chars "ID", ['\'', 'b', '\''], 2⟩] =
      [.dup (chars "ID") 2 1] := by
  constructor
  · intro rules
    apply dupGo_eq
    intro n
    simp [List.lookup]
  · decide

theorem rmQuotedGo_nil (q : Char) (fuel : Nat) : rmQuotedGo q fuel [] = [] := by
  cases fuel <;> simp [rmQuotedGo]

theorem rmQuotedGo_id (q : Char) (fuel : Nat) (l : List Char)
    (h : ∀ c ∈ l, ¬ c = q) : rmQuotedGo q fuel l = l := by
  induction fuel generalizing l with
  | zero => simp [rmQuotedGo]
  | succ fuel ih =>
    cases l with
    | nil => simp [rmQuotedGo]
    | cons c rest =>
      simp only [rmQuotedGo]
      rw [if_neg (h c (by simp))]
      rw [ih rest (fun x hx => h x (by simp [hx]))]

theorem rmQuoted_id (q : Char) (l : List Char) (h : ∀ c ∈ l, ¬ c = q) :
    rmQuoted q l = l := rmQuotedGo_id q l.length l h

theorem tryQuoted_clean (q : Char) (inner rest : List Char) (hq : ¬ q = '\\')
    (h : ∀ c ∈ inner, ¬ c = q ∧ ¬ c = '\\') :
    tryQuoted q (inner ++ q :: rest) = some rest := by
  induction inner with
  | nil =>
    simp only [List.nil_append]
    cases rest with
    | nil => simp [tryQuoted, hq]
    | cons x xs => simp [tryQuoted, hq]
  | cons c inner ih =>
    obtain ⟨h1, h2⟩ := h c (by simp)
    simp only [List.cons_append]
    rw [show tryQuoted q (c :: (inner ++ q :: rest)) = tryQuoted q (inner ++ q :: rest) by
      cases hrest : inner ++ q :: rest with
      | nil => simp at hrest
      | cons y ys => simp [tryQuoted, h1, h2]]
    exact ih (fun x hx => h x (by simp [hx]))

theorem splitAtRBrack_clean (inner rest : List Char) (h : ∀ c ∈ inner, ¬ c = ']') :
    splitAtRBrack (inner ++ ']' :: rest) = some rest := by
  induction inner with
  | nil => simp [splitAtRBrack]
  | cons c inner ih =>
    have hc := h c (by simp)
    simp only [List.cons_append]
    rw [show splitAtRBrack (c :: (inner ++ ']' :: rest)) = splitAtRBrack (inner ++ ']' :: rest) by
      simp [splitAtRBrack, hc]]
    exact ih (fun x hx => h x (by simp [hx]))

theorem rmQuoted_literal (q : Char) (inner : List Char) (hq : ¬ q = '\\')
    (h : ∀ c ∈ inner, ¬ c = q ∧ ¬ c = '\\') :
    rmQuoted q (q :: inner ++ [q]) = [' '] := by
  have ht : tryQuoted q (inner ++ [q]) = some [] := by
    simpa using tryQuoted_clean q inner [] hq h
  rw [rmQuoted]
  have hlen : (q :: inner ++ [q]).length = (inner ++ [q]).length + 1 := by simp
  rw [hlen]
  simp only [rmQuotedGo, List.cons_append]
  rw [if_pos trivial, ht]
  simp [rmQuotedGo_nil]

theorem rmClassesGo_nil (fuel : Nat) : rmClassesGo fuel [] = [] := by
  cases fuel <;> simp [rmClassesGo]

theorem rmClasses_class (inner : List Char) (h : ∀ c ∈ inner, ¬ c = ']') :
    rmClasses ('[' :: inner ++ [']']) = [' '] := by
  have ht : splitAtRBrack (inner ++ [']']) = some [] := by
    simpa using splitAtRBrack_clean inner [] h
  rw [rmClasses]
  have hlen : ('[' :: inner ++ [']']).length = (inner ++ [']']).length + 1 := by simp
  rw [hlen]
  simp only [rmClassesGo, List.cons_append]
  rw [if_pos trivial, ht]
  simp [rmClassesGo_nil]

/-- Counterexample for C7: the scanner classifies the whole of
`[[q]r]` as one character-class token (so the identifier `r` lies
inside the class), yet the analyzer reports `r` as an undefined rule
reference: the class-removal regular expression `\[[^\]]*\]` of
`referencedIdents` matches only up to the first `]`, ignoring nesting,
so `r` leaks into reference extraction — contradicting the claim that
identifiers inside character classes produce no finding. -/
theorem C7_reference_classification_counterexample :
    tokenize (chars "[[q]r]") = [⟨.charclass, chars "[[q]r]"⟩] ∧
    (analyze [⟨chars "x", chars "[[q]r]", 1⟩] []).errors =
      [.undefRule (chars "x") 1 (chars "r")] := by
  constructor <;> decide

/-- Claim C7, amended.  Identifiers inside a terminated quoted literal
with simple content, and inside a character class containing no nested
bracket, no escape and no quote, are excluded from reference
extraction (first two conjuncts); the class-removal and quote-removal
regular expressions are nesting- and escape-unaware, so identifiers
inside nested or escape-carrying classes or unterminated literals leak
out (see the counterexample).  Every extracted identifier is
classified exactly as claimed: the rule name itself or a defined rule
name contributes a dependency edge, an undefined all-uppercase
identifier yields the undefined-token warning, and every other
undefined identifier yields the undefined-rule error (third
conjunct). -/
theorem C7_reference_classification_amended :
    (∀ (q : Char) (inner : List Char), (q = '\'' ∨ q = '"') →
      (∀ c ∈ inner, ¬ c = '\'' ∧ ¬ c = '"' ∧ ¬ c = '\\') →
      referencedIdents (q :: inner ++ [q]) = []) ∧
    (∀ inner : List Char,
      (∀ c ∈ inner, ¬ c = '\'' ∧ ¬ c = '"' ∧ ¬ c = '[' ∧ ¬ c = ']' ∧ ¬ c = '\\') →
      referencedIdents ('[' :: inner ++ [']']) = []) ∧
    (∀ (rNames : List (List Char)) (rname id : List Char),
      ((id = rname ∨ id ∈ rNames) →
        classifyId rNames (rNames.filter isUpperIdent) rname id = .dep) ∧
      (¬ id = rname → ¬ id ∈ rNames → isUpperIdent id = true →
        classifyId rNames (rNames.filter isUpperIdent) rname id = .warnTok) ∧
      (¬ id = rname → ¬ id ∈ rNames → isUpperIdent id = false →
        classifyId rNames (rNames.filter isUpperIdent) rname id = .errUndef)) := by
  refine ⟨?_, ?_, ?_⟩
  · rintro q inner (rfl | rfl) h
    · rw [referencedIdents,
        rmQuoted_literal '\'' inner (by decide)
          (fun c hc => ⟨(h c hc).1, (h c hc).2.2⟩)]
      decide
    · rw [referencedIdents,
        rmQuoted_id '\'' ('"' :: inner ++ ['"']) (by
          intro c hc
          simp at hc
          rcases hc with rfl | hc | rfl
          · decide
          · exact (h c hc).1
          · decide),
        rmQuoted_literal '"' inner (by decide)
          (fun c hc => ⟨(h c hc).2.1, (h c hc).2.2⟩)]
      decide
  · intro inner h
    rw [referencedIdents,
      rmQuoted_id '\'' ('[' :: inner ++ [']']) (by
        intro c hc
        simp at hc
        rcases hc with rfl | hc | rfl
        · decide
        · exact (h c hc).1
        · decide),
      rmQuoted_id '"' ('[' :: inner ++ [']']) (by
        intro c hc
        simp at hc
        rcases hc with rfl | hc | rfl
        · decide
        · exact (h c hc).2.1
        · decide),
      rmClasses_class inner (fun c hc => (h c hc).2.2.2.1)]
    decide
  · refine fun rNames rname id => ⟨?_, ?_, ?_⟩
    · rintro (rfl | hmem)
      · simp [classifyId]
      · by_cases he : id = rname
        · simp [classifyId, he]
        · simp [classifyId, he, hmem]
    · intro h1 h2 h3
      have h4 : ¬ id ∈ rNames.filter isUpperIdent := fun hx => h2 (List.mem_of_mem_filter hx)
      simp [classifyId, h1, h2, h3, h4]
    · intro h1 h2 h3
      simp [classifyId, h1, h2, h3]

/-- Witness for C7: the amended theorem applied to a simple quoted
literal, a simple character class and a self reference. -/
theorem C7_reference_classification_amended_witness :
    referencedIdents ['\'', 'a', '\''] = [] ∧
    referencedIdents ['[', 'a', ']'] = [] ∧
    classifyId [chars "x"] ([chars "x"].filter isUpperIdent) (chars "x") (chars "x") =
      .dep :=
  ⟨C7_reference_classification_amended.1 '\'' ['a'] (Or.inl rfl) (by decide),
   C7_reference_classification_amended.2.1 ['a'] (by decide),
   (C7_reference_classification_amended.2.2 [chars "x"] (chars "x") (chars "x")).1
     (Or.inl rfl)⟩

theorem processIds_warns (rNames uNames : List (List Char)) (rname : List Char)
    (line : Nat) (ids : List (List Char)) :
    ∀ (deps : List (List Char)) (errs warns : List Finding),
    ∃ ws, (processIds rNames uNames rname line ids deps errs warns).2.2 = warns ++ ws ∧
      ∀ f ∈ ws, ∃ id, f = Finding.undefToken rname line id := by
  induction ids with
  | nil => exact fun deps errs warns => ⟨[], by simp [processIds], by simp⟩
  | cons id ids ih =>
    intro deps errs warns
    cases hcl : classifyId rNames uNames rname id with
    | dep =>
      obtain ⟨ws, hw, hall⟩ := ih (addDep deps id) errs warns
      exact ⟨ws, by simp only [processIds, hcl]; exact hw, hall⟩
    | warnTok =>
      obtain ⟨ws, hw, hall⟩ := ih deps errs (warns ++ [Finding.undefToken rname line id])
      refine ⟨Finding.undefToken rname line id :: ws, ?_, ?_⟩
      · simp only [processIds, hcl]
        rw [hw]
        simp
      · intro f hf
        rcases List.mem_cons.mp hf with rfl | hf
        · exact ⟨id, rfl⟩
        · exact hall f hf
    | errUndef =>
      obtain ⟨ws, hw, hall⟩ := ih deps (errs ++ [Finding.undefRule rname line id]) warns
      exact ⟨ws, by simp only [processIds, hcl]; exact hw, hall⟩
    | skip =>
      obtain ⟨ws, hw, hall⟩ := ih deps errs warns
      exact ⟨ws, by simp only [processIds, hcl]; exact hw, hall⟩

theorem processAlt_leftRec (rNames uNames : List (List Char)) (rname : List Char)
    (line : Nat) (alt : List Char)
    (st : List (List Char) × List Finding × List Finding) :
    Finding.leftRec rname line alt ∈ (processAlt rNames uNames rname line alt st).2.2 ↔
    (Finding.leftRec rname line alt ∈ st.2.2 ∨ firstIdentifier alt = some rname) := by
  obtain ⟨ws, hw, hall⟩ :=
    processIds_warns rNames uNames rname line (referencedIdents alt) st.1 st.2.1 st.2.2
  have hws : ¬ Finding.leftRec rname line alt ∈ ws := by
    intro hmem
    obtain ⟨id, hid⟩ := hall _ hmem
    simp at hid
  simp only [processAlt]
  split_ifs with hfi
  · simp [hw, hfi]
  · rw [hw]
    simp only [List.mem_append]
    constructor
    · rintro (h | h)
      · exact Or.inl h
      · exact absurd h hws
    · rintro (h | h)
      · exact Or.inl h
      · exact absurd h hfi

/-- Test selecting the direct-left-recursion warnings of the
analyzer. -/
def isLeftRec : Finding → Bool
  | .leftRec _ _ _ => true
  | _ => false

/-- The rhs of the C8 scenario rule `E ::= E '+' T | T ;`. -/
def c8rhs : List Char := chars "E " ++ '\'' :: '+' :: '\'' :: chars " T | T"

/-- The first alternative of the C8 scenario rule. -/
def c8alt1 : List Char := chars "E " ++ '\'' :: '+' :: '\'' :: chars " T"

/-- The C8 scenario rule list. -/
def c8rules : List CRule := [⟨chars "E", c8rhs, 1⟩]

/-- Claim C8.  Direct left recursion: for the rule
`E ::= E '+' T | T ;` the analyzer emits a left-recursion warning for
exactly the first alternative and none for the second (first
conjunct); in general the per-alternative processing emits the warning
for an alternative exactly when its leading identifier — computed by
`firstIdentifier`, which skips leading parenthesized groups, quoted
literals and character classes — equals the enclosing rule name
(second conjunct). -/
theorem C8_left_recursion :
    (analyze c8rules []).warnings.filter isLeftRec =
      [Finding.leftRec (chars "E") 1 c8alt1] ∧
    (∀ (rNames uNames : List (List Char)) (rname : List Char) (line : Nat)
      (alt : List Char) (st : List (List Char) × List Finding × List Finding),
      Finding.leftRec rname line alt ∈ (processAlt rNames uNames rname line alt st).2.2 ↔
      (Finding.leftRec rname line alt ∈ st.2.2 ∨ firstIdentifier alt = some rname)) :=
  ⟨by decide, processAlt_leftRec⟩

/-- The C9 scenario rule: name `name`, rhs scanned from `A | B | C`,
no leading comments. -/
def fmtDemoRule : PRule := ⟨chars "name", tokenize (chars "A | B | C"), []⟩

/-- The three-line body the renderer produces for `fmtDemoRule`: the
second and third lines indent the bars under the first alternative. -/
def fmtDemoBody : List Char := chars "name ::= A\n         | B\n         | C"

/-- Counterexample for C9: even at width 100, where the single line
`name ::= A | B | C ;` (21 characters) would fit, the renderer emits
the three-line block — the multi-alternative branch of `formatRule`
never joins alternatives onto one line, so the claimed single-line
rendering never happens for this rule. -/
theorem C9_formatting_counterexample :
    formatRule fmtDemoRule 100 = fmtDemoBody ++ [' ', ';'] ∧
    ¬ formatRule fmtDemoRule 100 = chars "name ::= A | B | C ;" := by
  constructor <;> decide

/-- Claim C9, amended.  For a rule with rhs tokens `A | B | C` the
renderer always produces the three-line form — `name ::= A`, then
`| B` and `| C` indented so the bars align under `A`, with the ` ;`
terminator on the last line — whenever the configured width is at
least the 36-character body (so no soft wrap rewrites it); the
single-line form is produced only for rules with exactly one
alternative, never for this rule. -/
theorem C9_formatting_amended (w : Nat) (hw : 36 ≤ w) :
    formatRule fmtDemoRule w = fmtDemoBody ++ [' ', ';'] := by
  have h1 : formatRule fmtDemoRule w =
      softWrap fmtDemoBody w (List.replicate 9 ' ') ++ [' ', ';'] := rfl
  have h2 : fmtDemoBody.length ≤ w := by
    have h36 : fmtDemoBody.length = 36 := by decide
    omega
  rw [h1, softWrap, if_pos h2]

/-- Witness for C9: the amended theorem applied at width 100. -/
theorem C9_formatting_amended_witness :
    formatRule fmtDemoRule 100 = fmtDemoBody ++ [' ', ';'] :=
  C9_formatting_amended 100 (by decide)

theorem foldl_graph_fst (f : CRule → List (List Char) × List Finding × List Finding) :
    ∀ (rules : List CRule) (g0 : List (List Char × List (List Char)))
      (e0 w0 : List Finding),
    (rules.foldl
      (fun st r => ((r.name, (f r).1) :: st.1, st.2.1 ++ (f r).2.1, st.2.2 ++ (f r).2.2))
      (g0, e0, w0)).1 = rules.foldl (fun g r => (r.name, (f r).1) :: g) g0 := by
  intro rules
  induction rules with
  | nil => intro g0 e0 w0; simp
  | cons r rest ih =>
    intro g0 e0 w0
    simp only [List.foldl_cons]
    exact ih _ _ _

theorem analyze_depGraph (rules : List CRule) (ov : List Char) :
    (analyze rules ov).depGraph =
      rules.foldl (fun g r => (r.name,
        (processRule (rules.map (fun x => x.name))
          ((rules.map (fun x => x.name)).filter isUpperIdent) r).1) :: g) [] := by
  unfold analyze
  dsimp only
  split <;> exact foldl_graph_fst _ rules [] (dupCheck rules) []

theorem lookup_prepend_fold (rules : List CRule) (F : CRule → List (List Char))
    (name : List Char) :
    (rules.foldl (fun g r => (r.name, F r) :: g) []).lookup name =
      (rules.reverse.find? (fun r => r.name == name)).map F := by
  induction rules using List.reverseRecOn with
  | nil => simp
  | append_singleton rs r ih =>
    rw [List.foldl_append]
    simp only [List.foldl_cons, List.foldl_nil, List.reverse_append,
      List.reverse_singleton, List.singleton_append, List.find?]
    by_cases hr : r.name = name
    · subst hr
      simp [List.lookup]
    · have h1 : (name == r.name) = false := by
        simpa using fun e => hr e.symm
      have h2 : (r.name == name) = false := by simpa using hr
      simp [List.lookup, h1, h2, ih]

/-- The C10 scenario: the name `a` is defined twice, the first body
referencing `b`, the second referencing `c`. -/
def c10rules : List CRule :=
  [⟨chars "s", chars "a", 1⟩, ⟨chars "a", chars "b", 2⟩, ⟨chars "a", chars "c", 3⟩,
   ⟨chars "b", [], 4⟩, ⟨chars "c", [], 5⟩]

/-- Claim C10.  Dependency graph under duplicate names: the analyzer
sets one graph entry per rule occurrence in declaration order, so a
lookup returns exactly the dependency set of the LAST occurrence of a
name (first conjunct, since the most recent set shadows the earlier
ones); in the scenario the entry for `a` is the second body (`c`, not
`b`), reachability from the start rule `s` therefore visits `s`, `a`
and `c` and warns that `b` is unreachable, while duplicate reporting
still references the first occurrence of `a` on line 2. -/
theorem C10_depgraph_last_occurrence :
    (∀ (rules : List CRule) (ov name : List Char),
      (analyze rules ov).depGraph.lookup name =
        (rules.reverse.find? (fun r => r.name == name)).map
          (fun r => (processRule (rules.map (fun x => x.name))
            ((rules.map (fun x => x.name)).filter isUpperIdent) r).1)) ∧
    (analyze c10rules []).depGraph.lookup (chars "a") = some [chars "c"] ∧
    reachGo (analyze c10rules []).depGraph (graphFuel (analyze c10rules []).depGraph)
      [chars "s"] [] = [chars "s", chars "a", chars "c"] ∧
    (analyze c10rules []).warnings = [.unreachable (chars "b") 4 (chars "s")] ∧
    (analyze c10rules []).errors = [.dup (chars "a") 3 2] := by
  refine ⟨?_, by decide, by decide, by decide, by decide⟩
  intro rules ov name
  rw [analyze_depGraph]
  exact lookup_prepend_fold rules _ name

end G4Ebnf
